import Mathlib

/-!
Verification of the AsyncRedis RESP frame codec.

The embedding models `src/frame.rs` (the `Frame` value model and `Frame::parse`
with its helpers) and the read path of `src/lib.rs` (`Connection::receive`).
Byte buffers are `List Nat` (each element one byte, 0..255); the Rust
`Cursor<&[u8]>` becomes an explicit position into the list.  Machine
arithmetic that can overflow is made explicit (`% 2 ^ 64` where the Rust u64
addition wraps in release builds); Rust panics (slice indexing out of bounds)
are a distinct outcome.  Heap-exhaustion behaviour (`Vec::with_capacity`,
`Bytes` allocation) is not modelled: allocation is assumed to succeed.
-/

namespace AsyncRedis

/-- `enum Error` from src/frame.rs: `StreamEndedEarly` (the "incomplete"
classification) and `Protocol(String)` (the "malformed" classification). -/
inductive Error
  | streamEndedEarly
  | protocol (reason : String)
deriving DecidableEq

/-- `enum Frame` from src/frame.rs.  `String` and `Bytes` payloads are
modelled as their byte sequences; a Rust `String` always holds valid UTF-8,
which the well-formedness predicate `Wf` records. -/
inductive Frame
  | simple (s : List Nat)
  | error (s : List Nat)
  | integer (n : Nat)
  | bulk (data : List Nat)
  | nil
  | array (elems : List Frame)

/-- The three-byte UTF-8 encoding of U+FFFD, pushed by
`String::from_utf8_lossy` for each invalid maximal subpart. -/
def replacementChar : List Nat := [0xEF, 0xBF, 0xBD]

/-- A UTF-8 continuation byte. -/
def isCont (b : Nat) : Bool := 0x80 ≤ b && b ≤ 0xBF

/-- Valid second byte of a three-byte UTF-8 sequence headed by `b`. -/
def utf8Second3 (b c : Nat) : Bool :=
  if b = 0xE0 then 0xA0 ≤ c && c ≤ 0xBF
  else if b = 0xED then 0x80 ≤ c && c ≤ 0x9F
  else isCont c

/-- Valid second byte of a four-byte UTF-8 sequence headed by `b`. -/
def utf8Second4 (b c : Nat) : Bool :=
  if b = 0xF0 then 0x90 ≤ c && c ≤ 0xBF
  else if b = 0xF4 then 0x80 ≤ c && c ≤ 0x8F
  else isCont c

/-- `String::from_utf8_lossy`: copy valid UTF-8 sequences, replace each
invalid maximal subpart with U+FFFD (resuming at the offending byte), and
replace an incomplete sequence at the end of the input with a single U+FFFD.
On valid UTF-8 it is the identity. -/
def utf8Lossy : List Nat → List Nat
  | [] => []
  | b :: rest =>
    if b ≤ 0x7F then b :: utf8Lossy rest
    else if 0xC2 ≤ b && b ≤ 0xDF then
      match rest with
      | [] => replacementChar
      | c :: rest2 =>
        if isCont c then b :: c :: utf8Lossy rest2
        else replacementChar ++ utf8Lossy (c :: rest2)
    else if 0xE0 ≤ b && b ≤ 0xEF then
      match rest with
      | [] => replacementChar
      | c :: rest2 =>
        if utf8Second3 b c then
          match rest2 with
          | [] => replacementChar
          | d :: rest3 =>
            if isCont d then b :: c :: d :: utf8Lossy rest3
            else replacementChar ++ utf8Lossy (d :: rest3)
        else replacementChar ++ utf8Lossy (c :: rest2)
    else if 0xF0 ≤ b && b ≤ 0xF4 then
      match rest with
      | [] => replacementChar
      | c :: rest2 =>
        if utf8Second4 b c then
          match rest2 with
          | [] => replacementChar
          | d :: rest3 =>
            if isCont d then
              match rest3 with
              | [] => replacementChar
              | e :: rest4 =>
                if isCont e then b :: c :: d :: e :: utf8Lossy rest4
                else replacementChar ++ utf8Lossy (e :: rest4)
            else replacementChar ++ utf8Lossy (d :: rest3)
        else replacementChar ++ utf8Lossy (c :: rest2)
    else replacementChar ++ utf8Lossy rest

/-- `atoi::ascii_to_digit`. -/
def asciiToDigit (b : Nat) : Option Nat :=
  if 48 ≤ b ∧ b ≤ 57 then some (b - 48) else none

/-- The digit loop of the `atoi` crate's `from_radix_10_checked` at type u64:
consume the maximal ASCII-digit prefix, accumulating with checked
multiply/add (the accumulator becomes `none` once the value would exceed
`2 ^ 64 - 1`); returns the accumulator and the number of digits consumed. -/
def fromRadix10 : List Nat → Option Nat → Option Nat × Nat
  | [], acc => (acc, 0)
  | b :: rest, acc =>
    match asciiToDigit b with
    | some d =>
      let acc' := acc.bind fun n => if n * 10 + d < 2 ^ 64 then some (n * 10 + d) else none
      let r := fromRadix10 rest acc'
      (r.1, r.2 + 1)
    | none => (acc, 0)

/-- The digit loop of `from_radix_10_signed_checked` after a `-` sign at an
unsigned type: checked multiply then checked subtract from the accumulator,
so any nonzero digit turns the accumulator into `none`. -/
def fromRadix10Neg : List Nat → Option Nat → Option Nat × Nat
  | [], acc => (acc, 0)
  | b :: rest, acc =>
    match asciiToDigit b with
    | some d =>
      let acc' := acc.bind fun n =>
        if n * 10 < 2 ^ 64 then (if d ≤ n * 10 then some (n * 10 - d) else none) else none
      let r := fromRadix10Neg rest acc'
      (r.1, r.2 + 1)
    | none => (acc, 0)

/-- `atoi::atoi::<u64>`: an optional leading sign, then the maximal digit
prefix with checked accumulation; `none` when no digit was consumed or the
value overflowed u64.  Trailing non-digit bytes are ignored. -/
def atoiU64 (text : List Nat) : Option Nat :=
  match text with
  | [] => none
  | b :: rest =>
    if b = 43 then
      let r := fromRadix10 rest (some 0)
      if r.2 = 0 then none else r.1
    else if b = 45 then
      let r := fromRadix10Neg rest (some 0)
      if r.2 = 0 then none else r.1
    else
      let r := fromRadix10 (b :: rest) (some 0)
      if r.2 = 0 then none else r.1

/-- Result of `Frame::read_line`: on success the line (bytes between the
start position and the CR) and the new cursor position (just past the LF);
`incomplete` is `Err(StreamEndedEarly)` with the cursor untouched. -/
inductive LineRes
  | ok (line : List Nat) (pos : Nat)
  | incomplete
  | panic
deriving DecidableEq

/-- The `for i in start..end` scan of `Frame::read_line`: the first index
`i` (starting at the given position, for the given number of steps) with CR
at `i` and LF at `i + 1`. -/
def findCRLF (src : List Nat) : Nat → Nat → Option Nat
  | _, 0 => none
  | i, steps + 1 =>
    if src.getD i 0 = 13 ∧ src.getD (i + 1) 0 = 10 then some i
    else findCRLF src (i + 1) steps

/-- `Frame::read_line`.  The source computes `end = src.get_ref().len() - 1`;
on an empty underlying slice that subtraction underflows and the subsequent
indexing panics (`Frame::parse` never calls it on an empty slice).  The scan
covers `start..end`, i.e. `end - start` steps. -/
def readLine (src : List Nat) (pos : Nat) : LineRes :=
  if src.length = 0 then .panic
  else
    match findCRLF src pos (src.length - 1 - pos) with
    | some i => .ok ((src.drop pos).take (i - pos)) (i + 2)
    | none => .incomplete

/-- Result of one decode attempt: `ok frame pos` / `err e pos` give the
caller-visible cursor position after `Frame::parse` returns; `panic` marks a
Rust panic (slice index out of bounds / overflow); `outOfFuel` is the fuel
marker of the embedding, proved unreachable for the fuel `Frame.parse`
supplies. -/
inductive Outcome
  | ok (f : Frame) (pos : Nat)
  | err (e : Error) (pos : Nat)
  | panic
  | outOfFuel

/-- Spec taxonomy: the attempt reported `Malformed` (a `Protocol` error). -/
def Outcome.isMalformed : Outcome → Bool
  | .err (.protocol _) _ => true
  | _ => false

/-- Spec taxonomy: the attempt reported `Incomplete` (`StreamEndedEarly`). -/
def Outcome.isIncomplete : Outcome → Bool
  | .err .streamEndedEarly _ => true
  | _ => false

/-- `Frame::parse_simple`; `pos` is the cursor just past the `+` marker. -/
def Frame.parseSimple (src : List Nat) (pos : Nat) : Outcome :=
  match readLine src pos with
  | .ok line p => .ok (.simple (utf8Lossy line)) p
  | .incomplete => .err .streamEndedEarly pos
  | .panic => .panic

/-- `Frame::parse_error`; `pos` is the cursor just past the `-` marker. -/
def Frame.parseError (src : List Nat) (pos : Nat) : Outcome :=
  match readLine src pos with
  | .ok line p => .ok (.error (utf8Lossy line)) p
  | .incomplete => .err .streamEndedEarly pos
  | .panic => .panic

/-- `Frame::parse_integer`; `pos` is the cursor just past the `:` marker. -/
def Frame.parseInteger (src : List Nat) (pos : Nat) : Outcome :=
  match readLine src pos with
  | .ok line p =>
    match atoiU64 line with
    | some n => .ok (.integer n) p
    | none => .err (.protocol "invalid frame format") p
  | .incomplete => .err .streamEndedEarly pos
  | .panic => .panic

/-- `Frame::parse_bulk`; `pos` is the cursor just past the `$` marker.
`length + 2` is u64 arithmetic and wraps modulo `2 ^ 64`; the later slice
`src.chunk()[..length as usize]` panics when `length` exceeds the remaining
byte count (reachable exactly when the addition wrapped). -/
def Frame.parseBulk (src : List Nat) (pos : Nat) : Outcome :=
  if pos < src.length then
    if src.getD pos 0 = 45 then
      match readLine src pos with
      | .ok line p => if line = [45, 49] then .ok .nil p else .err .streamEndedEarly p
      | .incomplete => .err .streamEndedEarly pos
      | .panic => .panic
    else
      match readLine src pos with
      | .ok line p =>
        match atoiU64 line with
        | some length =>
          -- n = (length + 2) as usize; the u64 addition wraps modulo 2^64
          if src.length - p < (length + 2) % 2 ^ 64 then .err .streamEndedEarly p
          else if length ≤ src.length - p then
            .ok (.bulk ((src.drop p).take length)) (p + (length + 2) % 2 ^ 64)
          else .panic
        | none => .err (.protocol "invalid frame format") p
      | .incomplete => .err .streamEndedEarly pos
      | .panic => .panic
  else .err .streamEndedEarly pos

mutual

/-- `Frame::parse`, fuel-indexed.  The first byte at the cursor is consumed
(`get_u8`, advancing the position by one) and dispatches on the marker; an
unrecognized marker is a `Protocol` error.  The array branch is
`Frame::parse_array` inlined: read the count line, then run the element
loop.  The fuel only bounds the recursion depth of the embedding; `2 *
src.length + 2` is proved sufficient (the parser consumes at least one byte
before every recursive call), so `Frame.parse` below never runs out. -/
def Frame.parseFuel : Nat → List Nat → Nat → Outcome
  | 0, _, _ => .outOfFuel
  | fuel + 1, src, pos =>
    -- first = src.get_u8(): the marker byte at the cursor, which advances by one
    if pos < src.length then
      if src.getD pos 0 = 43 then Frame.parseSimple src (pos + 1)
      else if src.getD pos 0 = 45 then Frame.parseError src (pos + 1)
      else if src.getD pos 0 = 58 then Frame.parseInteger src (pos + 1)
      else if src.getD pos 0 = 36 then Frame.parseBulk src (pos + 1)
      else if src.getD pos 0 = 42 then
        match readLine src (pos + 1) with
        | .ok line p =>
          match atoiU64 line with
          | some k => Frame.parseElems fuel src p k []
          | none => .err (.protocol "invalid frame format") p
        | .incomplete => .err .streamEndedEarly (pos + 1)
        | .panic => .panic
      else
        .err (.protocol ("invalid frame type byte `" ++ toString (src.getD pos 0) ++ "`"))
          (pos + 1)
    else .err .streamEndedEarly pos

/-- The `for _ in 0..length` element loop of `Frame::parse_array`: decode
`k` frames in sequence, propagating the first error. -/
def Frame.parseElems : Nat → List Nat → Nat → Nat → List Frame → Outcome
  | 0, _, _, _, _ => .outOfFuel
  | fuel + 1, src, pos, k, acc =>
    match k with
    | 0 => .ok (.array acc.reverse) pos
    | k' + 1 =>
      match Frame.parseFuel fuel src pos with
      | .ok f p => Frame.parseElems fuel src p k' (f :: acc)
      | .err e p => .err e p
      | .panic => .panic
      | .outOfFuel => .outOfFuel

end

/-- `Frame::parse` on a cursor: buffer plus position in, outcome (with the
final caller-visible position) out. -/
def Frame.parse (src : List Nat) (pos : Nat) : Outcome :=
  Frame.parseFuel (2 * src.length + 2) src pos

/-- `Connection::receive` (src/lib.rs): `BufReader::read_until(b'\n')` over
the sequence of bytes the peer delivers before closing.  Returns the bytes
handed to the caller (up to and including the first LF, or the whole stream
when the peer closes without sending one) and the remainder of the stream.
Transport chunking is invisible at this level: `read_until` keeps reading
until it sees the delimiter or end of stream. -/
def Connection.receive : List Nat → List Nat × List Nat
  | [] => ([], [])
  | b :: rest =>
    if b = 10 then ([b], rest)
    else
      let r := Connection.receive rest
      (b :: r.1, r.2)

/-- Fueled little-endian base-10 digit list (`fuel ≥ n` makes it exact). -/
def decDigits : Nat → Nat → List Nat
  | 0, _ => []
  | fuel + 1, n => if n = 0 then [] else n % 10 :: decDigits fuel (n / 10)

/-- Modelled from the spec: the base-10 ASCII rendering of an unsigned
integer used by the wire format's `:<n>`, `$<len>` and `*<count>` lines
(spec §6); src contains no wire encoder (`Display` is the human-readable
rendering only). -/
def decimal (n : Nat) : List Nat :=
  if n = 0 then [48] else ((decDigits n n).map (· + 48)).reverse

mutual

/-- Modelled from the spec: the wire encoder of spec §6 (`write_frame`'s
serialization, spec §4.3), absent from src — `impl Display for Frame`
renders only the bare human-readable value for Simple/Error/Integer and is
`todo!()` for Bulk/Nil/Array.  Each kind: marker byte, payload, CRLF
terminators, with the `$-1\r\n` Null sentinel. -/
def encode : Frame → List Nat
  | .simple s => 43 :: (s ++ [13, 10])
  | .error s => 45 :: (s ++ [13, 10])
  | .integer n => 58 :: (decimal n ++ [13, 10])
  | .bulk d => 36 :: (decimal d.length ++ [13, 10] ++ d ++ [13, 10])
  | .nil => [36, 45, 49, 13, 10]
  | .array es => 42 :: (decimal es.length ++ [13, 10] ++ encodeList es)

/-- Concatenation of the encodings of a list of frames (array elements). -/
def encodeList : List Frame → List Nat
  | [] => []
  | f :: fs => encode f ++ encodeList fs

end

/-- Well-formed frames: the values the Rust type can actually hold.  Simple
and Error payloads come from `String` (valid UTF-8, so `from_utf8_lossy` is
the identity) and, per the spec's data-model invariant, contain no embedded
CR or LF; `Integer` is a u64; a `Bytes`/`Vec` length fits in u64 (bulk also
leaves room for the `+ 2` of payload-plus-CRLF). -/
inductive Wf : Frame → Prop
  | simple {s : List Nat} : 13 ∉ s → 10 ∉ s → utf8Lossy s = s → Wf (.simple s)
  | error {s : List Nat} : 13 ∉ s → 10 ∉ s → utf8Lossy s = s → Wf (.error s)
  | integer {n : Nat} : n < 2 ^ 64 → Wf (.integer n)
  | bulk {d : List Nat} : d.length + 2 < 2 ^ 64 → Wf (.bulk d)
  | nil : Wf .nil
  | array {es : List Frame} : es.length < 2 ^ 64 → (∀ f ∈ es, Wf f) → Wf (.array es)

/-- Ten consecutive ASCII digits in `src` starting at index `i`. -/
def DigitRun (src : List Nat) (i : Nat) : Prop :=
  ∀ j < 10, i + j < src.length ∧ 48 ≤ src.getD (i + j) 0 ∧ src.getD (i + j) 0 ≤ 57

/-- No run of ten (or more) consecutive ASCII digits anywhere in `src`;
every length/count line such an input can contain parses below `10 ^ 9`. -/
def NoLongDigitRun (src : List Nat) : Prop :=
  ∀ i < src.length, ¬ DigitRun src i

instance (src : List Nat) (i : Nat) : Decidable (DigitRun src i) := by
  unfold DigitRun; infer_instance

instance (src : List Nat) : Decidable (NoLongDigitRun src) := by
  unfold NoLongDigitRun; infer_instance

/-! ### List indexing helpers -/

theorem getD_drop (src : List Nat) (n i d : Nat) :
    (src.drop n).getD i d = src.getD (n + i) d := by
  induction src generalizing n with
  | nil => simp
  | cons b rest ih =>
    cases n with
    | zero => simp
    | succ m => simp only [List.drop_succ_cons, List.getD_cons_succ, Nat.succ_add, ih m]

theorem getD_take (src : List Nat) {n i : Nat} (d : Nat) (h : i < n) :
    (src.take n).getD i d = src.getD i d := by
  induction src generalizing n i with
  | nil => simp
  | cons b rest ih =>
    cases n with
    | zero => omega
    | succ m =>
      cases i with
      | zero => simp
      | succ t => simpa using ih (Nat.lt_of_succ_lt_succ h)

theorem getD_append_left {l₁ l₂ : List Nat} {i : Nat} (d : Nat) (h : i < l₁.length) :
    (l₁ ++ l₂).getD i d = l₁.getD i d := by
  simp [List.getD_eq_getElem?_getD, List.getElem?_append_left h]

theorem getD_append_right {l₁ l₂ : List Nat} {i : Nat} (d : Nat) (h : l₁.length ≤ i) :
    (l₁ ++ l₂).getD i d = l₂.getD (i - l₁.length) d := by
  simp [List.getD_eq_getElem?_getD, List.getElem?_append_right h]

theorem getD_mem_of_lt {l : List Nat} {i : Nat} (d : Nat) (h : i < l.length) :
    l.getD i d ∈ l := by
  rw [List.getD_eq_getElem?_getD, List.getElem?_eq_getElem h]
  exact List.getElem_mem h

/-! ### read_line -/

theorem findCRLF_some {src : List Nat} :
    ∀ {steps i j : Nat}, findCRLF src i steps = some j →
      i ≤ j ∧ j < i + steps ∧ src.getD j 0 = 13 ∧ src.getD (j + 1) 0 = 10 := by
  intro steps
  induction steps with
  | zero => intro i j h; simp [findCRLF] at h
  | succ st ih =>
    intro i j h
    rw [findCRLF] at h
    split at h
    · next hc =>
      cases h
      exact ⟨le_refl _, by omega, hc.1, hc.2⟩
    · obtain ⟨h1, h2, h3, h4⟩ := ih h
      exact ⟨by omega, by omega, h3, h4⟩

theorem findCRLF_of_first {src : List Nat} :
    ∀ {steps i j : Nat}, i ≤ j → j < i + steps →
      (∀ t, i ≤ t → t < j → ¬(src.getD t 0 = 13 ∧ src.getD (t + 1) 0 = 10)) →
      src.getD j 0 = 13 → src.getD (j + 1) 0 = 10 →
      findCRLF src i steps = some j := by
  intro steps
  induction steps with
  | zero => intro i j _ h _ _ _; omega
  | succ st ih =>
    intro i j hij hlt hmin h13 h10
    rw [findCRLF]
    by_cases hc : src.getD i 0 = 13 ∧ src.getD (i + 1) 0 = 10
    · have hij' : i = j := by
        by_contra hne
        exact hmin i le_rfl (by omega) hc
      rw [if_pos hc, hij']
    · rw [if_neg hc]
      have hne : i ≠ j := by
        rintro rfl
        exact hc ⟨h13, h10⟩
      exact ih (by omega) (by omega) (fun t ht1 ht2 => hmin t (by omega) ht2) h13 h10

theorem readLine_ok {src : List Nat} {pos : Nat} {line : List Nat} {p : Nat}
    (h : readLine src pos = .ok line p) :
    ∃ j, p = j + 2 ∧ pos ≤ j ∧ j + 2 ≤ src.length ∧
      line = (src.drop pos).take (j - pos) := by
  unfold readLine at h
  split at h
  · cases h
  · rename_i hlen
    cases hf : findCRLF src pos (src.length - 1 - pos) with
    | none => rw [hf] at h; cases h
    | some j =>
      rw [hf] at h
      obtain ⟨hj1, hj2, _, _⟩ := findCRLF_some hf
      cases h
      exact ⟨j, rfl, hj1, by omega, rfl⟩

theorem readLine_ok_bounds {src : List Nat} {pos : Nat} {line : List Nat} {p : Nat}
    (h : readLine src pos = .ok line p) : pos + 2 ≤ p ∧ p ≤ src.length := by
  obtain ⟨j, rfl, hj1, hj2, _⟩ := readLine_ok h
  omega

theorem readLine_line_getD {src : List Nat} {pos : Nat} {line : List Nat} {p : Nat}
    (h : readLine src pos = .ok line p) :
    pos + line.length + 2 ≤ src.length ∧
      ∀ t < line.length, line.getD t 0 = src.getD (pos + t) 0 := by
  obtain ⟨j, rfl, hj1, hj2, rfl⟩ := readLine_ok h
  have hlen : ((src.drop pos).take (j - pos)).length = j - pos := by
    simp only [List.length_take, List.length_drop]
    omega
  constructor
  · omega
  · intro t ht
    rw [hlen] at ht
    rw [getD_take _ _ ht, getD_drop]

theorem readLine_encode {pre mid suf : List Nat} (hm : 13 ∉ mid) :
    readLine (pre ++ (mid ++ (13 :: 10 :: suf))) pre.length =
      .ok mid (pre.length + mid.length + 2) := by
  set L := pre ++ (mid ++ (13 :: 10 :: suf)) with hL
  have hlen : L.length = pre.length + mid.length + 2 + suf.length := by
    simp [hL]; omega
  have hcr : L.getD (pre.length + mid.length) 0 = 13 := by
    rw [hL, ← List.append_assoc, getD_append_right 0 (by simp)]
    simp
  have hlf : L.getD (pre.length + mid.length + 1) 0 = 10 := by
    rw [hL, ← List.append_assoc, getD_append_right 0 (by simp)]
    simp
  have hfind : findCRLF L pre.length (L.length - 1 - pre.length) =
      some (pre.length + mid.length) := by
    apply findCRLF_of_first (by omega) (by omega) _ hcr hlf
    intro t ht1 ht2 hcon
    have hmid : L.getD t 0 = mid.getD (t - pre.length) 0 := by
      rw [hL, getD_append_right 0 ht1, getD_append_left 0 (by omega)]
    have : L.getD t 0 ∈ mid := by
      rw [hmid]
      exact getD_mem_of_lt 0 (by omega)
    rw [hcon.1] at this
    exact hm this
  have hdrop : L.drop pre.length = mid ++ (13 :: 10 :: suf) := by
    rw [hL, List.drop_left]
  unfold readLine
  rw [if_neg (by omega), hfind]
  show LineRes.ok ((L.drop pre.length).take (pre.length + mid.length - pre.length))
      (pre.length + mid.length + 2) = _
  rw [hdrop, Nat.add_sub_cancel_left, List.take_left]

/-! ### atoi -/

theorem asciiToDigit_some {b d : Nat} (h : asciiToDigit b = some d) :
    48 ≤ b ∧ b ≤ 57 ∧ d = b - 48 := by
  unfold asciiToDigit at h
  split at h
  · next hb => cases h; exact ⟨hb.1, hb.2, rfl⟩
  · cases h

theorem fromRadix10_none : ∀ text : List Nat, (fromRadix10 text none).1 = none := by
  intro text
  induction text with
  | nil => rfl
  | cons b rest ih =>
    cases hd : asciiToDigit b with
    | some d =>
      rw [fromRadix10, hd]
      simpa using ih
    | none =>
      rw [fromRadix10, hd]

theorem fromRadix10_some_lt :
    ∀ (text : List Nat) (a v : Nat), (fromRadix10 text (some a)).1 = some v →
      v < (a + 1) * 10 ^ (fromRadix10 text (some a)).2 := by
  intro text
  induction text with
  | nil =>
    intro a v h
    cases h
    simp [fromRadix10]
  | cons b rest ih =>
    intro a v h
    cases hd : asciiToDigit b with
    | none =>
      rw [fromRadix10, hd] at h ⊢
      simp only at h ⊢
      cases h
      simp
    | some d =>
      rw [fromRadix10, hd] at h ⊢
      simp only [Option.some_bind] at h ⊢
      by_cases hov : a * 10 + d < 2 ^ 64
      · rw [if_pos hov] at h ⊢
        have hd9 : d ≤ 9 := by
          obtain ⟨h1, h2, rfl⟩ := asciiToDigit_some hd
          omega
        have hih := ih (a * 10 + d) v h
        calc v < (a * 10 + d + 1) * 10 ^ (fromRadix10 rest (some (a * 10 + d))).2 := hih
          _ ≤ ((a + 1) * 10) * 10 ^ (fromRadix10 rest (some (a * 10 + d))).2 := by
              apply Nat.mul_le_mul_right
              omega
          _ = (a + 1) * 10 ^ ((fromRadix10 rest (some (a * 10 + d))).2 + 1) := by
              rw [pow_succ]
              ring
      · rw [if_neg hov] at h
        rw [fromRadix10_none] at h
        cases h

theorem fromRadix10_digits :
    ∀ (text : List Nat) (acc : Option Nat) (t : Nat), t < (fromRadix10 text acc).2 →
      t < text.length ∧ 48 ≤ text.getD t 0 ∧ text.getD t 0 ≤ 57 := by
  intro text
  induction text with
  | nil =>
    intro acc t h
    simp [fromRadix10] at h
  | cons b rest ih =>
    intro acc t h
    cases hd : asciiToDigit b with
    | none =>
      rw [fromRadix10, hd] at h
      simp at h
    | some d =>
      rw [fromRadix10, hd] at h
      simp only at h
      obtain ⟨h1, h2, _⟩ := asciiToDigit_some hd
      cases t with
      | zero => exact ⟨by simp, by simpa using h1, by simpa using h2⟩
      | succ t' =>
        obtain ⟨g1, g2, g3⟩ := ih (acc.bind fun n => if n * 10 + d < 2 ^ 64 then some (n * 10 + d) else none) t' (by omega)
        exact ⟨by simpa using g1, by simpa using g2, by simpa using g3⟩

theorem fromRadix10Neg_none : ∀ text : List Nat, (fromRadix10Neg text none).1 = none := by
  intro text
  induction text with
  | nil => rfl
  | cons b rest ih =>
    cases hd : asciiToDigit b with
    | some d =>
      rw [fromRadix10Neg, hd]
      simpa using ih
    | none =>
      rw [fromRadix10Neg, hd]

theorem fromRadix10Neg_val :
    ∀ (text : List Nat) (v : Nat), (fromRadix10Neg text (some 0)).1 = some v → v = 0 := by
  intro text
  induction text with
  | nil =>
    intro v h
    cases h
    rfl
  | cons b rest ih =>
    intro v h
    cases hd : asciiToDigit b with
    | none =>
      rw [fromRadix10Neg, hd] at h
      cases h
      rfl
    | some d =>
      rw [fromRadix10Neg, hd] at h
      simp only [Option.some_bind] at h
      by_cases hz : d ≤ 0 * 10
      · rw [if_pos (by omega : (0 : Nat) * 10 < 2 ^ 64), if_pos hz] at h
        have hzz : (0 : Nat) * 10 - d = 0 := by omega
        rw [hzz] at h
        exact ih v h
      · rw [if_pos (by omega : (0 : Nat) * 10 < 2 ^ 64), if_neg hz] at h
        rw [fromRadix10Neg_none] at h
        cases h

theorem atoiU64_big {line : List Nat} {v : Nat} (h : atoiU64 line = some v)
    (hv : 10 ^ 9 ≤ v) :
    ∃ off, off ≤ 1 ∧ ∀ t < 10, off + t < line.length ∧
      48 ≤ line.getD (off + t) 0 ∧ line.getD (off + t) 0 ≤ 57 := by
  have pow_big : ∀ k : Nat, 10 ^ 9 < 10 ^ k → 10 ≤ k := by
    intro k hk
    by_contra hlt
    have hle : (10 : Nat) ^ k ≤ 10 ^ 9 := Nat.pow_le_pow_right (by omega) (by omega)
    omega
  cases line with
  | nil => cases h
  | cons b rest =>
    unfold atoiU64 at h
    simp only at h
    by_cases hb43 : b = 43
    · rw [if_pos hb43] at h
      split at h
      · cases h
      · next hk =>
        have hlt := fromRadix10_some_lt rest 0 v h
        simp only [Nat.zero_add, one_mul] at hlt
        have h10 : 10 ≤ (fromRadix10 rest (some 0)).2 := pow_big _ (by omega)
        refine ⟨1, le_rfl, fun t ht => ?_⟩
        obtain ⟨g1, g2, g3⟩ := fromRadix10_digits rest (some 0) t (by omega)
        have hidx : 1 + t = t + 1 := by omega
        rw [hidx]
        exact ⟨by simpa using g1, by simpa using g2, by simpa using g3⟩
    · rw [if_neg hb43] at h
      by_cases hb45 : b = 45
      · rw [if_pos hb45] at h
        split at h
        · cases h
        · have := fromRadix10Neg_val rest v h
          omega
      · rw [if_neg hb45] at h
        split at h
        · cases h
        · next hk =>
          have hlt := fromRadix10_some_lt (b :: rest) 0 v h
          simp only [Nat.zero_add, one_mul] at hlt
          have h10 : 10 ≤ (fromRadix10 (b :: rest) (some 0)).2 := pow_big _ (by omega)
          refine ⟨0, by omega, fun t ht => ?_⟩
          obtain ⟨g1, g2, g3⟩ := fromRadix10_digits (b :: rest) (some 0) t (by omega)
          simp only [Nat.zero_add]
          exact ⟨g1, g2, g3⟩

/-! ### Decimal rendering and its atoi round-trip -/

/-- Value of a big-endian base-10 digit list (proof helper). -/
def valBE : List Nat → Nat
  | [] => 0
  | d :: rest => d * 10 ^ rest.length + valBE rest

/-- Value of a little-endian base-10 digit list (proof helper). -/
def valLE : List Nat → Nat
  | [] => 0
  | d :: rest => d + 10 * valLE rest

theorem valBE_append (xs ys : List Nat) :
    valBE (xs ++ ys) = valBE xs * 10 ^ ys.length + valBE ys := by
  induction xs with
  | nil => simp [valBE]
  | cons d rest ih =>
    show valBE (d :: (rest ++ ys)) = valBE (d :: rest) * 10 ^ ys.length + valBE ys
    simp only [valBE]
    rw [ih, List.length_append, pow_add]
    ring

theorem valBE_reverse (l : List Nat) : valBE l.reverse = valLE l := by
  induction l with
  | nil => rfl
  | cons d rest ih =>
    rw [List.reverse_cons, valBE_append, ih]
    simp [valLE, valBE]
    omega

theorem fromRadix10_exact :
    ∀ (ds : List Nat) (a : Nat), (∀ d ∈ ds, d < 10) →
      a * 10 ^ ds.length + valBE ds < 2 ^ 64 →
      fromRadix10 (ds.map (· + 48)) (some a) =
        (some (a * 10 ^ ds.length + valBE ds), ds.length) := by
  intro ds
  induction ds with
  | nil =>
    intro a _ _
    simp [fromRadix10, valBE]
  | cons d rest ih =>
    intro a hd hlt
    have hd9 : d < 10 := hd d (List.mem_cons_self _ _)
    have had : asciiToDigit (d + 48) = some d := by
      unfold asciiToDigit
      have h48 : d + 48 - 48 = d := by omega
      rw [if_pos (by omega : 48 ≤ d + 48 ∧ d + 48 ≤ 57), h48]
    have hT : a * 10 ^ (d :: rest).length + valBE (d :: rest) =
        (a * 10 + d) * 10 ^ rest.length + valBE rest := by
      simp [valBE, List.length_cons, pow_succ]
      ring
    rw [hT] at hlt ⊢
    have hpow : (1 : Nat) ≤ 10 ^ rest.length := Nat.one_le_pow _ _ (by omega)
    have hstep : a * 10 + d ≤ (a * 10 + d) * 10 ^ rest.length := by
      calc a * 10 + d = (a * 10 + d) * 1 := by ring
        _ ≤ (a * 10 + d) * 10 ^ rest.length := Nat.mul_le_mul (le_refl _) hpow
    have hsmall : a * 10 + d < 2 ^ 64 := by omega
    simp only [List.map_cons]
    rw [fromRadix10, had]
    simp only [Option.some_bind]
    rw [if_pos hsmall]
    rw [ih (a * 10 + d) (fun x hx => hd x (List.mem_cons_of_mem _ hx)) (by omega)]
    simp

theorem decDigits_lt10 : ∀ (fuel n : Nat), ∀ d ∈ decDigits fuel n, d < 10 := by
  intro fuel
  induction fuel with
  | zero => intro n d h; simp [decDigits] at h
  | succ f ih =>
    intro n d h
    rw [decDigits] at h
    split at h
    · simp at h
    · rcases List.mem_cons.mp h with h1 | h2
      · subst h1
        exact Nat.mod_lt _ (by omega)
      · exact ih _ _ h2

theorem valLE_decDigits : ∀ (fuel n : Nat), n ≤ fuel → valLE (decDigits fuel n) = n := by
  intro fuel
  induction fuel with
  | zero =>
    intro n h
    have : n = 0 := by omega
    subst this
    rfl
  | succ f ih =>
    intro n h
    rw [decDigits]
    split
    · next h0 => simp [valLE, h0]
    · next h0 =>
      have hdiv : n / 10 ≤ f := by
        have := Nat.div_lt_self (by omega : 0 < n) (by omega : 1 < 10)
        omega
      simp only [valLE, ih _ hdiv]
      omega

theorem decimal_digits {n : Nat} : ∀ b ∈ decimal n, 48 ≤ b ∧ b ≤ 57 := by
  intro b hb
  unfold decimal at hb
  split at hb
  · simp at hb
    omega
  · rw [List.mem_reverse, List.mem_map] at hb
    obtain ⟨d, hd, rfl⟩ := hb
    have := decDigits_lt10 n n d hd
    omega

theorem decimal_ne_nil {n : Nat} : decimal n ≠ [] := by
  unfold decimal
  split
  · simp
  · next h0 =>
    intro hc
    have hlen := congrArg List.length hc
    simp only [List.length_reverse, List.length_map, List.length_nil] at hlen
    have hnil : decDigits n n = [] := List.length_eq_zero.mp hlen
    have hv := valLE_decDigits n n le_rfl
    rw [hnil] at hv
    exact h0 (by simpa [valLE] using hv.symm)

theorem atoiU64_decimal {n : Nat} (h : n < 2 ^ 64) : atoiU64 (decimal n) = some n := by
  by_cases h0 : n = 0
  · subst h0
    rfl
  · have hdec : decimal n = (decDigits n n).reverse.map (· + 48) := by
      unfold decimal
      rw [if_neg h0, List.map_reverse]
    have hval : valBE (decDigits n n).reverse = n := by
      rw [valBE_reverse]
      exact valLE_decDigits n n le_rfl
    have hd10 : ∀ d ∈ (decDigits n n).reverse, d < 10 := by
      intro d hd
      exact decDigits_lt10 n n d (List.mem_reverse.mp hd)
    have hexact := fromRadix10_exact (decDigits n n).reverse 0 hd10
      (by rw [hval]; simpa using h)
    rw [Nat.zero_mul, Nat.zero_add, hval] at hexact
    cases hds : (decDigits n n).reverse with
    | nil =>
      exfalso
      rw [hds] at hval
      exact h0 (by simpa [valBE] using hval.symm)
    | cons d ds =>
      have hd' : d < 10 := hd10 d (by rw [hds]; exact List.mem_cons_self _ _)
      rw [hdec, hds]
      simp only [List.map_cons, atoiU64]
      rw [if_neg (by omega), if_neg (by omega)]
      rw [hds] at hexact
      simp only [List.map_cons] at hexact
      rw [hexact]
      simp

/-! ### Structural facts about the parser -/

theorem readLine_ne_panic {src : List Nat} {pos : Nat} (hlen : src.length ≠ 0) :
    readLine src pos ≠ .panic := by
  unfold readLine
  rw [if_neg hlen]
  split <;> nofun

theorem parseSimple_ok_bounds {src : List Nat} {pos : Nat} {f : Frame} {p : Nat}
    (h : Frame.parseSimple src pos = .ok f p) : pos + 2 ≤ p ∧ p ≤ src.length := by
  unfold Frame.parseSimple at h
  split at h
  · next hr => cases h; exact readLine_ok_bounds hr
  · cases h
  · cases h

theorem parseError_ok_bounds {src : List Nat} {pos : Nat} {f : Frame} {p : Nat}
    (h : Frame.parseError src pos = .ok f p) : pos + 2 ≤ p ∧ p ≤ src.length := by
  unfold Frame.parseError at h
  split at h
  · next hr => cases h; exact readLine_ok_bounds hr
  · cases h
  · cases h

theorem parseInteger_ok_bounds {src : List Nat} {pos : Nat} {f : Frame} {p : Nat}
    (h : Frame.parseInteger src pos = .ok f p) : pos + 2 ≤ p ∧ p ≤ src.length := by
  unfold Frame.parseInteger at h
  split at h
  · next hr =>
    split at h
    · cases h; exact readLine_ok_bounds hr
    · cases h
  · cases h
  · cases h

theorem parseBulk_ok_bounds {src : List Nat} {pos : Nat} {f : Frame} {p : Nat}
    (h : Frame.parseBulk src pos = .ok f p) : pos + 2 ≤ p ∧ p ≤ src.length := by
  unfold Frame.parseBulk at h
  split at h
  · split at h
    · split at h
      · next hr =>
        split at h
        · cases h; exact readLine_ok_bounds hr
        · cases h
      · cases h
      · cases h
    · split at h
      · next hr =>
        split at h
        · split at h
          · cases h
          · split at h
            · next hn hle =>
              cases h
              have hb := readLine_ok_bounds hr
              omega
            · cases h
        · cases h
      · cases h
      · cases h
  · cases h

theorem parseSimple_ne_outOfFuel (src : List Nat) (pos : Nat) :
    Frame.parseSimple src pos ≠ .outOfFuel := by
  unfold Frame.parseSimple
  split <;> nofun

theorem parseError_ne_outOfFuel (src : List Nat) (pos : Nat) :
    Frame.parseError src pos ≠ .outOfFuel := by
  unfold Frame.parseError
  split <;> nofun

theorem parseInteger_ne_outOfFuel (src : List Nat) (pos : Nat) :
    Frame.parseInteger src pos ≠ .outOfFuel := by
  unfold Frame.parseInteger
  split
  · split <;> nofun
  · nofun
  · nofun

theorem parseBulk_ne_outOfFuel (src : List Nat) (pos : Nat) :
    Frame.parseBulk src pos ≠ .outOfFuel := by
  unfold Frame.parseBulk
  split
  · split
    · split
      · split <;> nofun
      · nofun
      · nofun
    · split
      · split
        · split
          · nofun
          · split <;> nofun
        · nofun
      · nofun
      · nofun
  · nofun

theorem parse_bounds :
    ∀ fuel : Nat,
      (∀ src pos f p, Frame.parseFuel fuel src pos = .ok f p →
        pos + 3 ≤ p ∧ p ≤ src.length) ∧
      (∀ src pos k acc f p, Frame.parseElems fuel src pos k acc = .ok f p →
        pos ≤ p ∧ (pos ≤ src.length → p ≤ src.length)) := by
  intro fuel
  induction fuel with
  | zero =>
    constructor
    · intro src pos f p h
      cases h
    · intro src pos k acc f p h
      cases h
  | succ fu ih =>
    obtain ⟨ihp, ihe⟩ := ih
    constructor
    · intro src pos f p h
      rw [Frame.parseFuel] at h
      split at h
      · split at h
        · have hb := parseSimple_ok_bounds h
          omega
        · split at h
          · have hb := parseError_ok_bounds h
            omega
          · split at h
            · have hb := parseInteger_ok_bounds h
              omega
            · split at h
              · have hb := parseBulk_ok_bounds h
                omega
              · split at h
                · split at h
                  · next line p' hr =>
                    split at h
                    · next k hk =>
                      have hb := readLine_ok_bounds hr
                      have he := ihe src p' k [] f p h
                      omega
                    · cases h
                  · cases h
                  · cases h
                · cases h
      · cases h
    · intro src pos k acc f p h
      cases k with
      | zero =>
        rw [Frame.parseElems] at h
        cases h
        exact ⟨le_rfl, fun hl => hl⟩
      | succ k' =>
        rw [Frame.parseElems] at h
        split at h
        · next f' p'' hp =>
          have hb := ihp src pos f' p'' hp
          have he := ihe src p'' k' (f' :: acc) f p h
          constructor
          · omega
          · intro _
            exact he.2 (by omega)
        · cases h
        · cases h
        · cases h

theorem parse_fuel_enough :
    ∀ fuel : Nat,
      (∀ src pos, 2 * (src.length - pos) + 1 ≤ fuel →
        Frame.parseFuel fuel src pos ≠ .outOfFuel) ∧
      (∀ src pos k acc, 2 * (src.length - pos) + 2 ≤ fuel →
        Frame.parseElems fuel src pos k acc ≠ .outOfFuel) := by
  intro fuel
  induction fuel with
  | zero =>
    constructor
    · intro src pos hb
      omega
    · intro src pos k acc hb
      omega
  | succ fu ih =>
    obtain ⟨ihp, ihe⟩ := ih
    constructor
    · intro src pos hb
      rw [Frame.parseFuel]
      split
      · split
        · exact parseSimple_ne_outOfFuel _ _
        · split
          · exact parseError_ne_outOfFuel _ _
          · split
            · exact parseInteger_ne_outOfFuel _ _
            · split
              · exact parseBulk_ne_outOfFuel _ _
              · split
                · split
                  · next line p' hr =>
                    split
                    · next k hk =>
                      have hrb := readLine_ok_bounds hr
                      exact ihe src p' k [] (by omega)
                    · nofun
                  · nofun
                  · nofun
                · nofun
      · nofun
    · intro src pos k acc hb
      cases k with
      | zero =>
        rw [Frame.parseElems]
        nofun
      | succ k' =>
        rw [Frame.parseElems]
        split
        · next f' p'' hp =>
          have hpb := (parse_bounds fu).1 src pos f' p'' hp
          exact ihe src p'' k' (f' :: acc) (by omega)
        · nofun
        · nofun
        · next hp =>
          exact absurd hp (ihp src pos (by omega))

/-- The fuel `Frame.parse` supplies always suffices: the embedding's fuel
marker is unreachable, i.e. the Rust recursion terminates on every input. -/
theorem parse_ne_outOfFuel (src : List Nat) (pos : Nat) :
    Frame.parse src pos ≠ .outOfFuel := by
  unfold Frame.parse
  exact (parse_fuel_enough _).1 src pos (by omega)

theorem parseSimple_ne_panic {src : List Nat} {pos : Nat} (hlen : src.length ≠ 0) :
    Frame.parseSimple src pos ≠ .panic := by
  unfold Frame.parseSimple
  split
  · nofun
  · nofun
  · next hr => exact absurd hr (readLine_ne_panic hlen)

theorem parseError_ne_panic {src : List Nat} {pos : Nat} (hlen : src.length ≠ 0) :
    Frame.parseError src pos ≠ .panic := by
  unfold Frame.parseError
  split
  · nofun
  · nofun
  · next hr => exact absurd hr (readLine_ne_panic hlen)

theorem parseInteger_ne_panic {src : List Nat} {pos : Nat} (hlen : src.length ≠ 0) :
    Frame.parseInteger src pos ≠ .panic := by
  unfold Frame.parseInteger
  split
  · split <;> nofun
  · nofun
  · next hr => exact absurd hr (readLine_ne_panic hlen)

/-- A successful `read_line` followed by an `atoi` value of at least `10 ^ 9`
forces a run of ten consecutive ASCII digits in the underlying buffer. -/
theorem digitRun_of_big_line {src : List Nat} {pos : Nat} {line : List Nat} {p : Nat}
    {v : Nat} (hr : readLine src pos = .ok line p) (ha : atoiU64 line = some v)
    (hv : 10 ^ 9 ≤ v) : ∃ i < src.length, DigitRun src i := by
  obtain ⟨off, hoff, hrun⟩ := atoiU64_big ha hv
  obtain ⟨hsp, hbytes⟩ := readLine_line_getD hr
  refine ⟨pos + off, ?_, ?_⟩
  · have h0 := hrun 0 (by omega)
    omega
  · intro j hj
    obtain ⟨g1, g2, g3⟩ := hrun j hj
    have hb := hbytes (off + j) g1
    have hidx : pos + off + j = pos + (off + j) := by omega
    rw [hidx]
    exact ⟨by omega, by rw [← hb]; exact g2, by rw [← hb]; exact g3⟩

theorem parseBulk_ne_panic {src : List Nat} {pos : Nat} (hlen : src.length ≠ 0)
    (hno : NoLongDigitRun src) : Frame.parseBulk src pos ≠ .panic := by
  unfold Frame.parseBulk
  split
  · split
    · split
      · split <;> nofun
      · nofun
      · next hr => exact absurd hr (readLine_ne_panic hlen)
    · split
      · next line p' hr =>
        split
        · next length hl =>
          split
          · nofun
          · split
            · nofun
            · next hn hle =>
              -- <length> exceeds the remaining bytes yet passed the wrapped
              -- `remaining < n` guard: only possible when length + 2
              -- overflowed u64, so length ≥ 2 ^ 64 - 2 ≥ 10 ^ 9.
              exfalso
              have h64 : (2 : Nat) ^ 64 = 18446744073709551616 := by norm_num
              have hbig : 10 ^ 9 ≤ length := by
                by_cases hov : length + 2 < 2 ^ 64
                · rw [Nat.mod_eq_of_lt hov] at hn
                  omega
                · have h9 : (10 : Nat) ^ 9 = 1000000000 := by norm_num
                  omega
              obtain ⟨i, hi, hrun⟩ := digitRun_of_big_line hr hl hbig
              exact hno i hi hrun
        · nofun
      · nofun
      · next hr => exact absurd hr (readLine_ne_panic hlen)
  · nofun

theorem parse_no_panic :
    ∀ fuel src, NoLongDigitRun src →
      (∀ pos, Frame.parseFuel fuel src pos ≠ .panic) ∧
      (∀ pos k acc, Frame.parseElems fuel src pos k acc ≠ .panic) := by
  intro fuel
  induction fuel with
  | zero =>
    intro src _
    constructor
    · intro pos
      nofun
    · intro pos k acc
      nofun
  | succ fu ih =>
    intro src hno
    obtain ⟨ihp, ihe⟩ := ih src hno
    constructor
    · intro pos
      rw [Frame.parseFuel]
      split
      · next hpos =>
        have hlen : src.length ≠ 0 := by omega
        split
        · exact parseSimple_ne_panic hlen
        · split
          · exact parseError_ne_panic hlen
          · split
            · exact parseInteger_ne_panic hlen
            · split
              · exact parseBulk_ne_panic hlen hno
              · split
                · split
                  · split
                    · exact ihe _ _ _
                    · nofun
                  · nofun
                  · next hr => exact absurd hr (readLine_ne_panic hlen)
                · nofun
      · nofun
    · intro pos k acc
      cases k with
      | zero =>
        rw [Frame.parseElems]
        nofun
      | succ k' =>
        rw [Frame.parseElems]
        split
        · exact ihe _ _ _
        · nofun
        · next hp => exact absurd hp (ihp pos)
        · nofun

/-! ### Round-trip: parsing an encoded frame -/

theorem getD_marker (pre : List Nat) (b : Nat) (tl : List Nat) :
    (pre ++ (b :: tl)).getD pre.length 0 = b := by
  rw [getD_append_right 0 le_rfl, Nat.sub_self, List.getD_cons_zero]

theorem length_marker_lt (pre : List Nat) (b : Nat) (tl : List Nat) :
    pre.length < (pre ++ (b :: tl)).length := by
  simp only [List.length_append, List.length_cons]
  omega

theorem decimal_not13 (n : Nat) : 13 ∉ decimal n := by
  intro h
  have := decimal_digits _ h
  omega

theorem encode_length_pos (f : Frame) : 1 ≤ (encode f).length := by
  cases f <;> simp [encode]

theorem parseFuel_encode_simple {mm : Nat} {pre suf s : List Nat}
    (h13 : 13 ∉ s) (hlossy : utf8Lossy s = s) :
    Frame.parseFuel (mm + 1) (pre ++ (encode (.simple s) ++ suf)) pre.length =
      .ok (.simple s) (pre.length + (encode (.simple s)).length) := by
  have hsh : encode (.simple s) ++ suf = 43 :: (s ++ (13 :: 10 :: suf)) := by
    simp [encode, List.append_assoc]
  rw [hsh, Frame.parseFuel, if_pos (length_marker_lt pre 43 _), getD_marker, if_pos rfl]
  unfold Frame.parseSimple
  have hsrc : pre ++ (43 :: (s ++ (13 :: 10 :: suf))) =
      (pre ++ [43]) ++ (s ++ (13 :: 10 :: suf)) := by
    simp
  have hpos : pre.length + 1 = (pre ++ [43]).length := by simp
  rw [hsrc, hpos, readLine_encode h13]
  simp only [hlossy]
  have harith : (pre ++ [43]).length + s.length + 2 =
      pre.length + (encode (.simple s)).length := by
    simp [encode]
    omega
  rw [harith]

theorem parseFuel_encode_error {mm : Nat} {pre suf s : List Nat}
    (h13 : 13 ∉ s) (hlossy : utf8Lossy s = s) :
    Frame.parseFuel (mm + 1) (pre ++ (encode (.error s) ++ suf)) pre.length =
      .ok (.error s) (pre.length + (encode (.error s)).length) := by
  have hsh : encode (.error s) ++ suf = 45 :: (s ++ (13 :: 10 :: suf)) := by
    simp [encode, List.append_assoc]
  rw [hsh, Frame.parseFuel, if_pos (length_marker_lt pre 45 _), getD_marker,
    if_neg (by decide), if_pos rfl]
  unfold Frame.parseError
  have hsrc : pre ++ (45 :: (s ++ (13 :: 10 :: suf))) =
      (pre ++ [45]) ++ (s ++ (13 :: 10 :: suf)) := by
    simp
  have hpos : pre.length + 1 = (pre ++ [45]).length := by simp
  rw [hsrc, hpos, readLine_encode h13]
  simp only [hlossy]
  have harith : (pre ++ [45]).length + s.length + 2 =
      pre.length + (encode (.error s)).length := by
    simp [encode]
    omega
  rw [harith]

theorem parseFuel_encode_integer {mm : Nat} {pre suf : List Nat} {n : Nat}
    (hn : n < 2 ^ 64) :
    Frame.parseFuel (mm + 1) (pre ++ (encode (.integer n) ++ suf)) pre.length =
      .ok (.integer n) (pre.length + (encode (.integer n)).length) := by
  have hsh : encode (.integer n) ++ suf = 58 :: (decimal n ++ (13 :: 10 :: suf)) := by
    simp [encode, List.append_assoc]
  rw [hsh, Frame.parseFuel, if_pos (length_marker_lt pre 58 _), getD_marker,
    if_neg (by decide), if_neg (by decide), if_pos rfl]
  unfold Frame.parseInteger
  have hsrc : pre ++ (58 :: (decimal n ++ (13 :: 10 :: suf))) =
      (pre ++ [58]) ++ (decimal n ++ (13 :: 10 :: suf)) := by
    simp
  have hpos : pre.length + 1 = (pre ++ [58]).length := by simp
  rw [hsrc, hpos]
  simp only [readLine_encode (decimal_not13 n), atoiU64_decimal hn]
  have harith : (pre ++ [58]).length + (decimal n).length + 2 =
      pre.length + (encode (.integer n)).length := by
    simp only [encode, List.length_append, List.length_cons, List.length_nil]
    omega
  rw [harith]

theorem parseFuel_encode_nil {mm : Nat} {pre suf : List Nat} :
    Frame.parseFuel (mm + 1) (pre ++ (encode .nil ++ suf)) pre.length =
      .ok .nil (pre.length + (encode .nil).length) := by
  have hsh : encode .nil ++ suf = 36 :: (45 :: (49 :: (13 :: 10 :: suf))) := by
    simp [encode]
  rw [hsh, Frame.parseFuel, if_pos (length_marker_lt pre 36 _), getD_marker,
    if_neg (by decide), if_neg (by decide), if_neg (by decide), if_pos rfl]
  unfold Frame.parseBulk
  have hsrc : pre ++ (36 :: (45 :: (49 :: (13 :: 10 :: suf)))) =
      (pre ++ [36]) ++ ((45 :: (49 :: (13 :: 10 :: suf)))) := by
    simp
  have hpos : pre.length + 1 = (pre ++ [36]).length := by simp
  rw [hsrc, hpos]
  rw [if_pos (length_marker_lt (pre ++ [36]) 45 _), getD_marker, if_pos rfl]
  have hsrc2 : (pre ++ [36]) ++ (45 :: (49 :: (13 :: 10 :: suf))) =
      (pre ++ [36]) ++ ([45, 49] ++ (13 :: 10 :: suf)) := by
    simp
  rw [hsrc2]
  simp only [readLine_encode (show (13 : Nat) ∉ [45, 49] by decide), if_true]
  simp [encode]

theorem parseFuel_encode_bulk {mm : Nat} {pre suf d : List Nat}
    (hd : d.length + 2 < 2 ^ 64) :
    Frame.parseFuel (mm + 1) (pre ++ (encode (.bulk d) ++ suf)) pre.length =
      .ok (.bulk d) (pre.length + (encode (.bulk d)).length) := by
  obtain ⟨dh, dt, hdec⟩ : ∃ dh dt, decimal d.length = dh :: dt := by
    cases hd0 : decimal d.length with
    | nil => exact absurd hd0 decimal_ne_nil
    | cons dh dt => exact ⟨dh, dt, rfl⟩
  have hdh : 48 ≤ dh ∧ dh ≤ 57 := by
    have := decimal_digits (n := d.length) (b := dh)
    rw [hdec] at this
    exact this (List.mem_cons_self _ _)
  have hsh : encode (.bulk d) ++ suf =
      36 :: (dh :: (dt ++ (13 :: 10 :: (d ++ (13 :: 10 :: suf))))) := by
    simp only [encode, hdec]
    simp [List.append_assoc]
  rw [hsh, Frame.parseFuel, if_pos (length_marker_lt pre 36 _), getD_marker,
    if_neg (by decide), if_neg (by decide), if_neg (by decide), if_pos rfl]
  unfold Frame.parseBulk
  have hsrc : pre ++ (36 :: (dh :: (dt ++ (13 :: 10 :: (d ++ (13 :: 10 :: suf)))))) =
      (pre ++ [36]) ++ (dh :: (dt ++ (13 :: 10 :: (d ++ (13 :: 10 :: suf))))) := by
    simp
  have hpos : pre.length + 1 = (pre ++ [36]).length := by simp
  rw [hsrc, hpos]
  rw [if_pos (length_marker_lt (pre ++ [36]) dh _), getD_marker, if_neg (by omega)]
  have hsrc2 : (pre ++ [36]) ++ (dh :: (dt ++ (13 :: 10 :: (d ++ (13 :: 10 :: suf))))) =
      (pre ++ [36]) ++ ((dh :: dt) ++ (13 :: 10 :: (d ++ (13 :: 10 :: suf)))) := by
    simp
  rw [hsrc2]
  have h13d : (13 : Nat) ∉ dh :: dt := by rw [← hdec]; exact decimal_not13 _
  simp only [readLine_encode h13d]
  rw [← hdec]
  have hmod : (d.length + 2) % 2 ^ 64 = d.length + 2 := Nat.mod_eq_of_lt hd
  simp only [atoiU64_decimal (show d.length < 2 ^ 64 by omega), hmod]
  rw [if_neg (by
    simp only [List.length_append, List.length_cons, List.length_nil]
    omega)]
  rw [if_pos (by
    simp only [List.length_append, List.length_cons, List.length_nil]
    omega)]
  have hdrop : (((pre ++ [36]) ++ (decimal d.length ++ (13 :: 10 :: (d ++ (13 :: 10 :: suf))))).drop
      ((pre ++ [36]).length + (decimal d.length).length + 2)).take d.length = d := by
    have hre : (pre ++ [36]) ++ (decimal d.length ++ (13 :: 10 :: (d ++ (13 :: 10 :: suf)))) =
        (((pre ++ [36]) ++ decimal d.length) ++ [13, 10]) ++ (d ++ (13 :: 10 :: suf)) := by
      simp
    rw [hre, List.drop_left' (by
      simp only [List.length_append, List.length_cons, List.length_nil]),
      List.take_left' rfl]
  rw [hdrop]
  have harith : (pre ++ [36]).length + (decimal d.length).length + 2 + (d.length + 2) =
      pre.length + (encode (.bulk d)).length := by
    simp only [encode, List.length_append, List.length_cons, List.length_nil]
    omega
  rw [harith]

theorem parseElems_zero (fuel : Nat) (src : List Nat) (pos : Nat) (acc : List Frame) :
    Frame.parseElems (fuel + 1) src pos 0 acc = .ok (.array acc.reverse) pos := rfl

theorem parseElems_succ (fuel : Nat) (src : List Nat) (pos k : Nat) (acc : List Frame) :
    Frame.parseElems (fuel + 1) src pos (k + 1) acc =
      match Frame.parseFuel fuel src pos with
      | .ok f p => Frame.parseElems fuel src p k (f :: acc)
      | .err e p => .err e p
      | .panic => .panic
      | .outOfFuel => .outOfFuel := rfl

/-- Parsing the wire encoding of a well-formed frame, in any buffer context,
returns exactly that frame and consumes exactly its encoding; and the
element loop decodes a concatenation of encodings into the corresponding
array.  (Joint statement, by strong induction on the fuel.) -/
theorem parse_encode :
    ∀ m : Nat,
      (∀ f pre suf, Wf f → 2 * (encode f).length < m →
        Frame.parseFuel m (pre ++ (encode f ++ suf)) pre.length =
          .ok f (pre.length + (encode f).length)) ∧
      (∀ es pre suf acc, (∀ e ∈ es, Wf e) → 2 * (encodeList es).length + 2 ≤ m →
        Frame.parseElems m (pre ++ (encodeList es ++ suf)) pre.length es.length acc =
          .ok (.array (acc.reverse ++ es)) (pre.length + (encodeList es).length)) := by
  intro m
  induction m using Nat.strong_induction_on with
  | _ m ih =>
    constructor
    · intro f pre suf hwf hm
      obtain ⟨mm, rfl⟩ : ∃ mm, m = mm + 1 := ⟨m - 1, by omega⟩
      cases hwf with
      | simple h13 h10 hlossy => exact parseFuel_encode_simple h13 hlossy
      | error h13 h10 hlossy => exact parseFuel_encode_error h13 hlossy
      | integer hn => exact parseFuel_encode_integer hn
      | bulk hd => exact parseFuel_encode_bulk hd
      | nil => exact parseFuel_encode_nil
      | array hk hall =>
        rename_i es
        have hsh : encode (.array es) ++ suf =
            42 :: (decimal es.length ++ (13 :: 10 :: (encodeList es ++ suf))) := by
          simp [encode, List.append_assoc]
        rw [hsh, Frame.parseFuel, if_pos (length_marker_lt pre 42 _), getD_marker,
          if_neg (by decide), if_neg (by decide), if_neg (by decide), if_neg (by decide),
          if_pos rfl]
        have hsrc : pre ++ (42 :: (decimal es.length ++ (13 :: 10 :: (encodeList es ++ suf)))) =
            (pre ++ [42]) ++ (decimal es.length ++ (13 :: 10 :: (encodeList es ++ suf))) := by
          simp
        have hpos : pre.length + 1 = (pre ++ [42]).length := by simp
        rw [hsrc, hpos]
        simp only [readLine_encode (decimal_not13 es.length), atoiU64_decimal hk]
        have hsrc2 : (pre ++ [42]) ++ (decimal es.length ++ (13 :: 10 :: (encodeList es ++ suf))) =
            ((pre ++ [42]) ++ decimal es.length ++ [13, 10]) ++ (encodeList es ++ suf) := by
          simp
        have hp0 : (pre ++ [42]).length + (decimal es.length).length + 2 =
            ((pre ++ [42]) ++ decimal es.length ++ [13, 10] : List Nat).length := by
          simp only [List.length_append, List.length_cons, List.length_nil]
        rw [hsrc2, hp0]
        have hmlen : 2 * (encode (.array es)).length < mm + 1 := hm
        have hmlen' : 2 * (encodeList es).length + 2 ≤ mm := by
          simp only [encode, List.length_cons, List.length_append] at hmlen
          omega
        rw [(ih mm (by omega)).2 es ((pre ++ [42]) ++ decimal es.length ++ [13, 10]) suf []
          hall hmlen']
        simp only [List.reverse_nil, List.nil_append]
        congr 1
        simp only [encode, List.length_cons, List.length_append, List.length_nil]
        omega
    · intro es pre suf acc hall hm
      obtain ⟨mm, rfl⟩ : ∃ mm, m = mm + 1 := ⟨m - 1, by omega⟩
      cases es with
      | nil =>
        simp only [List.length_nil]
        rw [parseElems_zero]
        simp [encodeList]
      | cons e rest =>
        have hsh : encodeList (e :: rest) ++ suf = encode e ++ (encodeList rest ++ suf) := by
          simp [encodeList, List.append_assoc]
        have hencL : (encodeList (e :: rest)).length =
            (encode e).length + (encodeList rest).length := by
          simp [encodeList]
        have hwe : Wf e := hall e (List.mem_cons_self _ _)
        have henc1 : 1 ≤ (encode e).length := encode_length_pos e
        have hA : 2 * (encode e).length < mm := by
          rw [hencL] at hm
          omega
        have hB : 2 * (encodeList rest).length + 2 ≤ mm := by
          rw [hencL] at hm
          omega
        rw [hsh]
        simp only [List.length_cons]
        rw [parseElems_succ]
        simp only [(ih mm (by omega)).1 e pre (encodeList rest ++ suf) hwe hA]
        have hsrc3 : pre ++ (encode e ++ (encodeList rest ++ suf)) =
            (pre ++ encode e) ++ (encodeList rest ++ suf) := by
          simp
        have hpos3 : pre.length + (encode e).length = (pre ++ encode e).length := by
          simp
        rw [hsrc3, hpos3]
        rw [(ih mm (by omega)).2 rest (pre ++ encode e) suf (e :: acc)
          (fun x hx => hall x (List.mem_cons_of_mem _ hx)) hB]
        congr 1
        · simp
        · rw [hencL]
          simp only [List.length_append]
          omega

/-- A successful element loop always returns an Array frame with exactly
the declared element count (plus what was already accumulated). -/
theorem parseElems_ok_array :
    ∀ (fuel : Nat) (src : List Nat) (pos k : Nat) (acc : List Frame) (f : Frame) (p : Nat),
      Frame.parseElems fuel src pos k acc = .ok f p →
      ∃ es, f = .array es ∧ es.length = k + acc.length := by
  intro fuel
  induction fuel with
  | zero =>
    intro src pos k acc f p h
    cases h
  | succ fu ih =>
    intro src pos k acc f p h
    cases k with
    | zero =>
      rw [parseElems_zero] at h
      cases h
      exact ⟨acc.reverse, rfl, by simp⟩
    | succ k' =>
      rw [parseElems_succ] at h
      split at h
      · next f' p'' hp =>
        obtain ⟨es, rfl, hlen⟩ := ih src p'' k' (f' :: acc) f p h
        refine ⟨es, rfl, ?_⟩
        simp only [List.length_cons] at hlen
        omega
      · cases h
      · cases h
      · cases h

/-! ### The claims -/

/-- C1 counterexample: on `$5\r\nHel` (a Bulk frame whose payload has not
fully arrived) the decode attempt classifies the input as Incomplete
(`StreamEndedEarly`), yet the caller-visible cursor position is 4 — just
past the consumed length line — not the starting position 0, so the claim
"the cursor position after the attempt equals the position before" is
false. -/
theorem c1_counterexample :
    Frame.parse [36, 53, 13, 10, 72, 101, 108] 0 = .err .streamEndedEarly 4 ∧
      (4 : Nat) ≠ 0 :=
  ⟨rfl, by decide⟩

/-- C1 (amended): on Incomplete the cursor is not restored.  A Simple,
Error or Integer frame whose line has no buffered CRLF leaves the cursor
one byte past the marker; a Bulk frame whose length line was consumed but
whose payload is short leaves it just past the length line. -/
theorem c1_amended_cursor_on_incomplete :
    ∀ (src : List Nat) (pos : Nat), pos < src.length →
      ((src.getD pos 0 = 43 ∨ src.getD pos 0 = 45 ∨ src.getD pos 0 = 58) →
        readLine src (pos + 1) = .incomplete →
        Frame.parse src pos = .err .streamEndedEarly (pos + 1)) ∧
      (∀ (line : List Nat) (p n : Nat), src.getD pos 0 = 36 → pos + 1 < src.length →
        src.getD (pos + 1) 0 ≠ 45 → readLine src (pos + 1) = .ok line p →
        atoiU64 line = some n → n + 2 < 2 ^ 64 → src.length - p < n + 2 →
        Frame.parse src pos = .err .streamEndedEarly p) := by
  intro src pos hpos
  constructor
  · intro hm hinc
    unfold Frame.parse
    rw [show 2 * src.length + 2 = 2 * src.length + 1 + 1 from rfl, Frame.parseFuel,
      if_pos hpos]
    rcases hm with h | h | h
    · rw [h, if_pos rfl]
      unfold Frame.parseSimple
      rw [hinc]
    · rw [h, if_neg (by decide), if_pos rfl]
      unfold Frame.parseError
      rw [hinc]
    · rw [h, if_neg (by decide), if_neg (by decide), if_pos rfl]
      unfold Frame.parseInteger
      rw [hinc]
  · intro line p n h36 h1 hne hrl hat hov hrem
    unfold Frame.parse
    rw [show 2 * src.length + 2 = 2 * src.length + 1 + 1 from rfl, Frame.parseFuel,
      if_pos hpos, h36, if_neg (by decide), if_neg (by decide), if_neg (by decide),
      if_pos rfl]
    unfold Frame.parseBulk
    rw [if_pos h1, if_neg hne]
    simp only [hrl, hat, Nat.mod_eq_of_lt hov]
    rw [if_pos hrem]

/-- C1 amended witness: `+ab` leaves the cursor at 1; `$5\r\nHel` leaves it
at 4. -/
theorem c1_amended_witness :
    Frame.parse [43, 97, 98] 0 = .err .streamEndedEarly 1 ∧
      Frame.parse [36, 53, 13, 10, 72, 101, 108] 0 = .err .streamEndedEarly 4 := by
  constructor
  · exact (c1_amended_cursor_on_incomplete [43, 97, 98] 0 (by decide)).1 (Or.inl rfl) rfl
  · exact (c1_amended_cursor_on_incomplete [36, 53, 13, 10, 72, 101, 108] 0 (by decide)).2
      [53] 4 5 rfl (by decide) (by decide) rfl rfl (by norm_num) (by decide)

/-- C2 counterexample: in `$-2\r\n` the Bulk length line is fully present
(CRLF-terminated) and its payload `-2` does not parse as a nonnegative
integer, yet decoding reports `StreamEndedEarly` (Incomplete), not
Malformed. -/
theorem c2_counterexample :
    readLine [36, 45, 50, 13, 10] 1 = .ok [45, 50] 5 ∧
      atoiU64 [45, 50] = none ∧
      Frame.parse [36, 45, 50, 13, 10] 0 = .err .streamEndedEarly 5 ∧
      (Frame.parse [36, 45, 50, 13, 10] 0).isMalformed = false :=
  ⟨rfl, rfl, rfl, rfl⟩

/-- C2 (amended): an Integer line, an Array count line, or a Bulk length
line not beginning with `-`, when fully present but unparseable by atoi,
reports Malformed; a Bulk length line beginning with `-` is never given to
atoi — anything other than the literal `-1` reports Incomplete
(`StreamEndedEarly`). -/
theorem c2_amended_unparseable_lines :
    ∀ (src : List Nat) (pos : Nat) (line : List Nat) (p : Nat), pos < src.length →
      ((src.getD pos 0 = 58 → readLine src (pos + 1) = .ok line p →
        atoiU64 line = none →
        Frame.parse src pos = .err (.protocol "invalid frame format") p) ∧
       (src.getD pos 0 = 42 → readLine src (pos + 1) = .ok line p →
        atoiU64 line = none →
        Frame.parse src pos = .err (.protocol "invalid frame format") p) ∧
       (src.getD pos 0 = 36 → pos + 1 < src.length → src.getD (pos + 1) 0 ≠ 45 →
        readLine src (pos + 1) = .ok line p → atoiU64 line = none →
        Frame.parse src pos = .err (.protocol "invalid frame format") p) ∧
       (src.getD pos 0 = 36 → pos + 1 < src.length → src.getD (pos + 1) 0 = 45 →
        readLine src (pos + 1) = .ok line p → line ≠ [45, 49] →
        Frame.parse src pos = .err .streamEndedEarly p)) := by
  intro src pos line p hpos
  refine ⟨?_, ?_, ?_, ?_⟩
  · intro h58 hrl hat
    unfold Frame.parse
    rw [show 2 * src.length + 2 = 2 * src.length + 1 + 1 from rfl, Frame.parseFuel,
      if_pos hpos, h58, if_neg (by decide), if_neg (by decide), if_pos rfl]
    unfold Frame.parseInteger
    simp only [hrl, hat]
  · intro h42 hrl hat
    unfold Frame.parse
    rw [show 2 * src.length + 2 = 2 * src.length + 1 + 1 from rfl, Frame.parseFuel,
      if_pos hpos, h42, if_neg (by decide), if_neg (by decide), if_neg (by decide),
      if_neg (by decide), if_pos rfl]
    simp only [hrl, hat]
  · intro h36 h1 hne hrl hat
    unfold Frame.parse
    rw [show 2 * src.length + 2 = 2 * src.length + 1 + 1 from rfl, Frame.parseFuel,
      if_pos hpos, h36, if_neg (by decide), if_neg (by decide), if_neg (by decide),
      if_pos rfl]
    unfold Frame.parseBulk
    rw [if_pos h1, if_neg hne]
    simp only [hrl, hat]
  · intro h36 h1 h45 hrl hline
    unfold Frame.parse
    rw [show 2 * src.length + 2 = 2 * src.length + 1 + 1 from rfl, Frame.parseFuel,
      if_pos hpos, h36, if_neg (by decide), if_neg (by decide), if_neg (by decide),
      if_pos rfl]
    unfold Frame.parseBulk
    rw [if_pos h1, if_pos h45]
    simp only [hrl]
    rw [if_neg hline]

/-- C2 amended witness: `:abc\r\n`, `*a\r\n` and `$a\r\n` report Malformed;
`$-2\r\n` reports Incomplete. -/
theorem c2_amended_witness :
    Frame.parse [58, 97, 98, 99, 13, 10] 0 = .err (.protocol "invalid frame format") 6 ∧
      Frame.parse [42, 97, 13, 10] 0 = .err (.protocol "invalid frame format") 4 ∧
      Frame.parse [36, 97, 13, 10] 0 = .err (.protocol "invalid frame format") 4 ∧
      Frame.parse [36, 45, 50, 13, 10] 0 = .err .streamEndedEarly 5 := by
  refine ⟨?_, ?_, ?_, ?_⟩
  · exact (c2_amended_unparseable_lines [58, 97, 98, 99, 13, 10] 0 [97, 98, 99] 6
      (by decide)).1 rfl rfl rfl
  · exact (c2_amended_unparseable_lines [42, 97, 13, 10] 0 [97] 4 (by decide)).2.1 rfl rfl rfl
  · exact (c2_amended_unparseable_lines [36, 97, 13, 10] 0 [97] 4 (by decide)).2.2.1 rfl
      (by decide) (by decide) rfl rfl
  · exact (c2_amended_unparseable_lines [36, 45, 50, 13, 10] 0 [45, 50] 5 (by decide)).2.2.2
      rfl (by decide) rfl rfl (by decide)

/-- C3: for every well-formed frame of each of the six kinds, decoding the
wire encoding yields the original frame, consuming exactly its bytes.  The
encoder is modelled from the spec (src has none). -/
theorem c3_decode_encode_roundtrip :
    ∀ f : Frame, Wf f → Frame.parse (encode f) 0 = .ok f (encode f).length := by
  intro f hwf
  unfold Frame.parse
  have h := (parse_encode (2 * (encode f).length + 2)).1 f [] [] hwf (by omega)
  simpa using h

/-- C3 witness: a nested array containing all six frame kinds
round-trips. -/
theorem c3_roundtrip_witness :
    Frame.parse (encode (.array [.simple [79, 75], .integer 791, .bulk [72, 105], .nil,
      .error [69, 82, 82], .array []])) 0 =
      .ok (.array [.simple [79, 75], .integer 791, .bulk [72, 105], .nil,
        .error [69, 82, 82], .array []])
        (encode (.array [.simple [79, 75], .integer 791, .bulk [72, 105], .nil,
          .error [69, 82, 82], .array []])).length := by
  apply c3_decode_encode_roundtrip
  refine Wf.array (by decide) ?_
  intro f hf
  simp only [List.mem_cons, List.not_mem_nil, or_false] at hf
  rcases hf with rfl | rfl | rfl | rfl | rfl | rfl
  · exact Wf.simple (by decide) (by decide) (by decide)
  · exact Wf.integer (by decide)
  · exact Wf.bulk (by decide)
  · exact Wf.nil
  · exact Wf.error (by decide) (by decide) (by decide)
  · exact Wf.array (by decide) (by intro f hf; simp at hf)

/-- C4 (code bug): `parse_bulk` never verifies the two bytes after the
payload.  `$5\r\nHelloXY` — whose byte 9 is `X`, not CR — decodes
successfully to `Bulk("Hello")`, consuming the `XY` as if it were the
CRLF terminator, where the spec requires Malformed. -/
theorem c4_bulk_terminator_not_checked :
    Frame.parse [36, 53, 13, 10, 72, 101, 108, 108, 111, 88, 89] 0 =
      .ok (.bulk [72, 101, 108, 108, 111]) 11 ∧
      [36, 53, 13, 10, 72, 101, 108, 108, 111, 88, 89].getD 9 0 ≠ 13 :=
  ⟨rfl, by decide⟩

/-- C5 (code bug): `Connection::receive` reads raw bytes up to the first
LF.  When the peer sends the Bulk frame `$5\r\nHello\r\n`, the first
receive hands the caller only its length line `$5\r\n` — a partial frame
whose decode attempt reports Incomplete — never a whole decoded frame. -/
theorem c5_receive_surfaces_partial_frame :
    Connection.receive [36, 53, 13, 10, 72, 101, 108, 108, 111, 13, 10] =
      ([36, 53, 13, 10], [72, 101, 108, 108, 111, 13, 10]) ∧
      Frame.parse [36, 53, 13, 10] 0 = .err .streamEndedEarly 4 :=
  ⟨rfl, rfl⟩

/-- C6 counterexample: `$18446744073709551615\r\nX` declares n = 2^64 - 1
bytes with fewer than n + 2 following, yet the decode attempt panics
(`length + 2` wraps to 1, defeating the Incomplete guard, and the payload
slice indexes out of bounds) instead of reporting Incomplete. -/
theorem c6_counterexample :
    Frame.parse [36, 49, 56, 52, 52, 54, 55, 52, 52, 48, 55, 51, 55, 48, 57, 53, 53, 49,
      54, 49, 53, 13, 10, 88] 0 = .panic ∧
      (Frame.parse [36, 49, 56, 52, 52, 54, 55, 52, 52, 48, 55, 51, 55, 48, 57, 53, 53, 49,
        54, 49, 53, 13, 10, 88] 0).isIncomplete = false :=
  ⟨rfl, rfl⟩

/-- C6 (amended): a Bulk length line declaring n with n + 2 representable
in u64, whose buffer holds fewer than n + 2 bytes after the length line,
reports Incomplete (`StreamEndedEarly`), not Malformed; for n ≥ 2^64 - 2
the addition wraps and parse panics instead. -/
theorem c6_amended_short_bulk_incomplete :
    ∀ (src : List Nat) (pos : Nat) (line : List Nat) (p n : Nat),
      pos < src.length → src.getD pos 0 = 36 → pos + 1 < src.length →
      src.getD (pos + 1) 0 ≠ 45 → readLine src (pos + 1) = .ok line p →
      atoiU64 line = some n → n + 2 < 2 ^ 64 → src.length - p < n + 2 →
      Frame.parse src pos = .err .streamEndedEarly p ∧
        (Frame.parse src pos).isMalformed = false := by
  intro src pos line p n hpos h36 h1 hne hrl hat hov hrem
  have h : Frame.parse src pos = .err .streamEndedEarly p := by
    unfold Frame.parse
    rw [show 2 * src.length + 2 = 2 * src.length + 1 + 1 from rfl, Frame.parseFuel,
      if_pos hpos, h36, if_neg (by decide), if_neg (by decide), if_neg (by decide),
      if_pos rfl]
    unfold Frame.parseBulk
    rw [if_pos h1, if_neg hne]
    simp only [hrl, hat, Nat.mod_eq_of_lt hov]
    rw [if_pos hrem]
  exact ⟨h, by rw [h]; rfl⟩

/-- C6 amended witness: `$5\r\nHel\r\n` (only 5 of the promised 7 bytes
buffered after the length line) reports Incomplete. -/
theorem c6_amended_witness :
    Frame.parse [36, 53, 13, 10, 72, 101, 108, 13, 10] 0 = .err .streamEndedEarly 4 ∧
      (Frame.parse [36, 53, 13, 10, 72, 101, 108, 13, 10] 0).isMalformed = false :=
  c6_amended_short_bulk_incomplete [36, 53, 13, 10, 72, 101, 108, 13, 10] 0 [53] 4 5
    (by decide) rfl (by decide) (by decide) rfl rfl (by norm_num) (by decide)

/-- C7: a literal `-1` Bulk length line always denotes Null: whenever the
byte after `$` starts the line `-1` (CRLF-terminated), parse returns `Nil`
with the cursor just past the line. -/
theorem c7_nil_sentinel :
    ∀ (src : List Nat) (pos p : Nat), pos < src.length → src.getD pos 0 = 36 →
      pos + 1 < src.length → readLine src (pos + 1) = .ok [45, 49] p →
      Frame.parse src pos = .ok .nil p := by
  intro src pos p hpos h36 h1 hrl
  have h45 : src.getD (pos + 1) 0 = 45 := by
    obtain ⟨hsp, hbytes⟩ := readLine_line_getD hrl
    have := hbytes 0 (by decide)
    simpa using this.symm
  unfold Frame.parse
  rw [show 2 * src.length + 2 = 2 * src.length + 1 + 1 from rfl, Frame.parseFuel,
    if_pos hpos, h36, if_neg (by decide), if_neg (by decide), if_neg (by decide),
    if_pos rfl]
  unfold Frame.parseBulk
  rw [if_pos h1, if_pos h45]
  simp only [hrl, if_true]

/-- C7 witness: `$-1\r\n` decodes to Null. -/
theorem c7_witness : Frame.parse [36, 45, 49, 13, 10] 0 = .ok .nil 5 :=
  c7_nil_sentinel [36, 45, 49, 13, 10] 0 5 (by decide) rfl (by decide) rfl

/-- C8: when an Array count line declares k and the element loop (run with
the same fuel the parser itself passes it) succeeds, parse returns that
result, and it is an Array of exactly k frames; in particular `*0\r\n`,
`*2\r\n+one\r\n+two\r\n` and the nested `*1\r\n*1\r\n+x\r\n` decode to the
expected arrays. -/
theorem c8_array_decodes_k_elements :
    (∀ (src : List Nat) (pos : Nat) (line : List Nat) (p k : Nat) (f : Frame) (p' : Nat),
      pos < src.length → src.getD pos 0 = 42 →
      readLine src (pos + 1) = .ok line p → atoiU64 line = some k →
      Frame.parseElems (2 * src.length + 1) src p k [] = .ok f p' →
      Frame.parse src pos = .ok f p' ∧ ∃ es, f = .array es ∧ es.length = k) ∧
    Frame.parse [42, 48, 13, 10] 0 = .ok (.array []) 4 ∧
    Frame.parse [42, 50, 13, 10, 43, 111, 110, 101, 13, 10, 43, 116, 119, 111, 13, 10] 0 =
      .ok (.array [.simple [111, 110, 101], .simple [116, 119, 111]]) 16 ∧
    Frame.parse [42, 49, 13, 10, 42, 49, 13, 10, 43, 120, 13, 10] 0 =
      .ok (.array [.array [.simple [120]]]) 12 := by
  refine ⟨?_, rfl, rfl, rfl⟩
  intro src pos line p k f p' hpos h42 hrl hat hE
  constructor
  · unfold Frame.parse
    rw [show 2 * src.length + 2 = 2 * src.length + 1 + 1 from rfl, Frame.parseFuel,
      if_pos hpos, h42, if_neg (by decide), if_neg (by decide), if_neg (by decide),
      if_neg (by decide), if_pos rfl]
    simp only [hrl, hat]
    exact hE
  · obtain ⟨es, hes, hlen⟩ := parseElems_ok_array _ src p k [] f p' hE
    exact ⟨es, hes, by simpa using hlen⟩

/-- C8 witness: the two-element array instantiates the general statement. -/
theorem c8_witness :
    Frame.parse [42, 50, 13, 10, 43, 111, 110, 101, 13, 10, 43, 116, 119, 111, 13, 10] 0 =
      .ok (.array [.simple [111, 110, 101], .simple [116, 119, 111]]) 16 ∧
      ∃ es, Frame.array [.simple [111, 110, 101], .simple [116, 119, 111]] = .array es ∧
        es.length = 2 :=
  c8_array_decodes_k_elements.1
    [42, 50, 13, 10, 43, 111, 110, 101, 13, 10, 43, 116, 119, 111, 13, 10] 0 [50] 4 2
    (.array [.simple [111, 110, 101], .simple [116, 119, 111]]) 16
    (by decide) rfl rfl rfl rfl

/-- C9: an unrecognized marker byte reports Malformed immediately, with the
cursor exactly one byte past the marker (nothing beyond it consumed). -/
theorem c9_unknown_marker_malformed :
    ∀ (src : List Nat) (pos : Nat), pos < src.length →
      src.getD pos 0 ≠ 43 → src.getD pos 0 ≠ 45 → src.getD pos 0 ≠ 58 →
      src.getD pos 0 ≠ 36 → src.getD pos 0 ≠ 42 →
      Frame.parse src pos =
        .err (.protocol ("invalid frame type byte `" ++ toString (src.getD pos 0) ++ "`"))
          (pos + 1) := by
  intro src pos hpos h43 h45 h58 h36 h42
  unfold Frame.parse
  rw [show 2 * src.length + 2 = 2 * src.length + 1 + 1 from rfl, Frame.parseFuel,
    if_pos hpos, if_neg h43, if_neg h45, if_neg h58, if_neg h36, if_neg h42]

/-- C9 witness: `?\r\n` reports the unknown marker 63 as Malformed at
cursor 1. -/
theorem c9_witness :
    Frame.parse [63, 13, 10] 0 =
      .err (.protocol ("invalid frame type byte `" ++ toString (63 : Nat) ++ "`")) 1 :=
  c9_unknown_marker_malformed [63, 13, 10] 0 (by decide) (by decide) (by decide)
    (by decide) (by decide) (by decide)

/-- C10 counterexample: the length line of `$18446744073709551614\r\n`
parses to 2^64 - 2, `length + 2` wraps to 0, the Incomplete guard passes
vacuously, and the payload slice panics — parse is not panic-free and the
bulk-length arithmetic does overflow for this decodable length line. -/
theorem c10_counterexample :
    Frame.parse [36, 49, 56, 52, 52, 54, 55, 52, 52, 48, 55, 51, 55, 48, 57, 53, 53, 49,
      54, 49, 52, 13, 10] 0 = .panic := rfl

/-- C10 (amended): parse terminates on every input (the embedding's fuel
marker is unreachable), and it never panics on inputs with no run of ten
or more consecutive ASCII digits — every length/count line then parses
below 10^9, so the `length + 2` arithmetic cannot overflow. -/
theorem c10_amended_total_no_overflow :
    ∀ (src : List Nat) (pos : Nat),
      Frame.parse src pos ≠ .outOfFuel ∧
        (NoLongDigitRun src → Frame.parse src pos ≠ .panic) := by
  intro src pos
  refine ⟨parse_ne_outOfFuel src pos, fun hno => ?_⟩
  unfold Frame.parse
  exact (parse_no_panic _ src hno).1 pos

/-- C10 amended witness: `+OK\r\n` has no long digit run; parse neither
runs out of fuel nor panics on it. -/
theorem c10_amended_witness :
    Frame.parse [43, 79, 75, 13, 10] 0 ≠ .outOfFuel ∧
      Frame.parse [43, 79, 75, 13, 10] 0 ≠ .panic := by
  obtain ⟨h1, h2⟩ := c10_amended_total_no_overflow [43, 79, 75, 13, 10] 0
  exact ⟨h1, h2 (by decide)⟩

end AsyncRedis
